import Mathlib

/-!
Verification of the proteus session codec (`src/internal/session/binary.rs`).

The Rust module serializes a Double-Ratchet `Session` to a byte stream and
reconstructs it, validating the protocol version and the local identity on
decode.  We embed the codec shallowly: byte streams are `List (Fin 256)`,
decoders are functions from a stream to `Except e (result × leftover)`,
mirroring the `DecoderReader` fail-fast behaviour of the Rust code.  The
opaque key-material collaborator codecs (`enc_cipher_key`, `dec_counter`,
`enc_session_tag`, ... from `internal::keys::binary` and friends, which are
not part of this module) are modelled from the spec as fixed-length
big-endian 4-byte transforms that fail atomically on truncated input;
`usize` counts are 8 bytes, as bincode encodes them.
-/

namespace Proteus

abbrev Byte := Fin 256

abbrev Bytes := List Byte

/-- The error message our byte reader produces when the source is exhausted,
standing for bincode's premature-end-of-input `DecodingError`. -/
def prem : String := "Premature end of input"

/-- Big-endian bytes of `n`, `k` bytes wide (the value wraps modulo `256 ^ k`,
as a Rust fixed-width integer would). -/
def natToBytes : Nat → Nat → Bytes
  | 0, _ => []
  | k + 1, n => ⟨n / 256 ^ k % 256, Nat.mod_lt _ (by decide)⟩ :: natToBytes k n

/-- A decoder: consumes a front portion of the stream, returns the decoded
value and the unconsumed remainder, or fails with the first error. -/
def DecE (ε α : Type) : Type := Bytes → Except ε (α × Bytes)

def dbind {ε α β : Type} (p : DecE ε α) (f : α → DecE ε β) : DecE ε β := fun b =>
  match p b with
  | .error e => .error e
  | .ok (a, b2) => f a b2

def dpure {ε α : Type} (a : α) : DecE ε α := fun b => .ok (a, b)

def dfail {ε α : Type} (e : ε) : DecE ε α := fun _ => .error e

abbrev Dec (α : Type) : Type := DecE String α

instance {ε α : Type} [DecidableEq ε] [DecidableEq α] : DecidableEq (Except ε α) :=
  fun x y =>
  match x, y with
  | .error a, .error b => decidable_of_iff (a = b) (by simp)
  | .error _, .ok _ => isFalse (by simp)
  | .ok _, .error _ => isFalse (by simp)
  | .ok a, .ok b => decidable_of_iff (a = b) (by simp)

def readByte : Dec Byte := fun b =>
  match b with
  | [] => .error prem
  | x :: r => .ok (x, r)

/-- Read `k` bytes, big-endian, into an accumulator. -/
def readBEAux : Nat → Nat → Dec Nat
  | 0, acc => dpure acc
  | k + 1, acc => dbind readByte (fun x => readBEAux k (acc * 256 + x.val))

/-- Modelled from the spec: bincode's `u32` codec (4 bytes, fails atomically
on a short source). -/
def decU32 : Dec Nat := readBEAux 4 0

def encU32 (n : Nat) : Bytes := natToBytes 4 n

/-- Modelled from the spec: bincode's `usize` codec (8 bytes). -/
def decUsize : Dec Nat := readBEAux 8 0

def encUsize (n : Nat) : Bytes := natToBytes 8 n

-- Data model ----------------------------------------------------------------

inductive Version : Type
  | V1
deriving DecidableEq

structure RootKey : Type where
  key : Nat
deriving DecidableEq

structure ChainKey : Type where
  key : Nat
  idx : Nat
deriving DecidableEq

structure KeyPair : Type where
  secret_key : Nat
  public_key : Nat
deriving DecidableEq

structure IdentityKeyPair : Type where
  secret_key : Nat
  public_key : Nat
deriving DecidableEq

structure SendChain : Type where
  chain_key : ChainKey
  ratchet_key : KeyPair
deriving DecidableEq

structure RecvChain : Type where
  chain_key : ChainKey
  ratchet_key : Nat
deriving DecidableEq

structure MessageKeys : Type where
  cipher_key : Nat
  mac_key : Nat
  counter : Nat
deriving DecidableEq

structure SessionState : Type where
  session_tag : Nat
  recv_chains : List RecvChain
  send_chain : SendChain
  root_key : RootKey
  prev_counter : Nat
  skipped_msgkeys : List MessageKeys
deriving DecidableEq

/-- An entry of the session-state `BTreeMap`: the separately maintained
insertion index together with the state (`Indexed::new(counter, s)`). -/
structure Indexed : Type where
  idx : Nat
  val : SessionState
deriving DecidableEq

structure Session : Type where
  version : Version
  session_tag : Nat
  counter : Nat
  local_identity : IdentityKeyPair
  remote_identity : Nat
  pending_prekey : Option (Nat × Nat)
  session_states : List (Nat × Indexed)
deriving DecidableEq

-- Collaborator codecs (modelled) --------------------------------------------

/-- Modelled from the spec: `enc_cipher_key` of `internal::derived::binary`,
an opaque fixed-length key codec. -/
def enc_cipher_key (k : Nat) : Bytes := encU32 k

def dec_cipher_key : Dec Nat := decU32

/-- Modelled from the spec: `enc_mac_key` of `internal::derived::binary`. -/
def enc_mac_key (k : Nat) : Bytes := encU32 k

def dec_mac_key : Dec Nat := decU32

/-- Modelled from the spec: `enc_public_key` of `internal::keys::binary`. -/
def enc_public_key (k : Nat) : Bytes := encU32 k

def dec_public_key : Dec Nat := decU32

/-- Modelled from the spec: `enc_identity_key` of `internal::keys::binary`. -/
def enc_identity_key (k : Nat) : Bytes := encU32 k

def dec_identity_key : Dec Nat := decU32

/-- Modelled from the spec: `enc_counter` of `internal::message::binary`. -/
def enc_counter (c : Nat) : Bytes := encU32 c

def dec_counter : Dec Nat := decU32

/-- Modelled from the spec: `enc_prekey_id` of `internal::keys::binary`. -/
def enc_prekey_id (i : Nat) : Bytes := encU32 i

def dec_prekey_id : Dec Nat := decU32

/-- Modelled from the spec: `enc_session_tag` of `internal::message::binary`. -/
def enc_session_tag (t : Nat) : Bytes := encU32 t

def dec_session_tag : Dec Nat := decU32

/-- Modelled from the spec: `enc_keypair` of `internal::keys::binary`
(private part followed by public part). -/
def enc_keypair (k : KeyPair) : Bytes := encU32 k.secret_key ++ encU32 k.public_key

def dec_keypair : Dec KeyPair :=
  dbind decU32 (fun s => dbind decU32 (fun p => dpure ⟨s, p⟩))

-- Codecs of binary.rs --------------------------------------------------------

def enc_root_key (k : RootKey) : Bytes := enc_cipher_key k.key

def dec_root_key : Dec RootKey := dbind dec_cipher_key (fun k => dpure ⟨k⟩)

def enc_chain_key (k : ChainKey) : Bytes := enc_mac_key k.key ++ enc_counter k.idx

def dec_chain_key : Dec ChainKey :=
  dbind dec_mac_key (fun k => dbind dec_counter (fun c => dpure ⟨k, c⟩))

def enc_send_chain (s : SendChain) : Bytes :=
  enc_chain_key s.chain_key ++ enc_keypair s.ratchet_key

def dec_send_chain : Dec SendChain :=
  dbind dec_chain_key (fun k => dbind dec_keypair (fun c => dpure ⟨k, c⟩))

def enc_recv_chain (r : RecvChain) : Bytes :=
  enc_chain_key r.chain_key ++ enc_public_key r.ratchet_key

def dec_recv_chain : Dec RecvChain :=
  dbind dec_chain_key (fun k => dbind dec_public_key (fun c => dpure ⟨k, c⟩))

def enc_msg_keys (k : MessageKeys) : Bytes :=
  enc_cipher_key k.cipher_key ++ (enc_mac_key k.mac_key ++ enc_counter k.counter)

def dec_msg_keys : Dec MessageKeys :=
  dbind dec_cipher_key (fun k =>
  dbind dec_mac_key (fun m =>
  dbind dec_counter (fun c => dpure ⟨k, m, c⟩)))

def enc_session_version (_ : Version) : Bytes := encU32 1

def dec_session_version : Dec Version :=
  dbind decU32 (fun v =>
    if v = 1 then dpure Version.V1
    else dfail ("Unknown session version " ++ toString v))

/-- Length-prefix-free concatenation of the element encodings (the per-element
half of the `for` loops in `enc_session_state` / `enc_session`). -/
def encAll {α : Type} (enc : α → Bytes) : List α → Bytes
  | [] => []
  | x :: xs => enc x ++ encAll enc xs

/-- The decode loop `for _ in 0 .. k { push_back(try!(p)) }`. -/
def decMany {α : Type} (p : Dec α) : Nat → Dec (List α)
  | 0 => dpure []
  | k + 1 => dbind p (fun a => dbind (decMany p k) (fun as => dpure (a :: as)))

def enc_session_state (s : SessionState) : Bytes :=
  enc_session_tag s.session_tag ++
  (encUsize s.recv_chains.length ++
  (encAll enc_recv_chain s.recv_chains ++
  (enc_send_chain s.send_chain ++
  (enc_root_key s.root_key ++
  (enc_counter s.prev_counter ++
  (encUsize s.skipped_msgkeys.length ++
  encAll enc_msg_keys s.skipped_msgkeys))))))

def dec_session_state : Dec SessionState :=
  dbind dec_session_tag (fun tg =>
  dbind decUsize (fun lr =>
  dbind (decMany dec_recv_chain lr) (fun rr =>
  dbind dec_send_chain (fun sc =>
  dbind dec_root_key (fun rk =>
  dbind dec_counter (fun ct =>
  dbind decUsize (fun lv =>
  dbind (decMany dec_msg_keys lv) (fun vm =>
  dpure ⟨tg, rr, sc, rk, ct, vm⟩))))))))

/-- The pending-prekey field of `enc_session` (the inline `match` on
`s.pending_prekey`, lines 103-110). -/
def enc_pending_prekey : Option (Nat × Nat) → Bytes
  | none => encU32 1
  | some (id, pk) => encU32 2 ++ (enc_prekey_id id ++ enc_public_key pk)

/-- The pending-prekey field of `dec_session` (the inline `match` on the
decoded `u32` discriminant, lines 126-134). -/
def dec_pending_prekey : Dec (Option (Nat × Nat)) :=
  dbind decU32 (fun t =>
    if t = 1 then dpure none
    else if t = 2 then
      dbind dec_prekey_id (fun id =>
      dbind dec_public_key (fun pk => dpure (some (id, pk))))
    else dfail ("Invalid pending prekeys"))

/-- `BTreeMap::insert` on the sorted association list that models the
session-state map: keeps keys strictly sorted, replaces an equal key. -/
def bmapInsert (k : Nat) (v : Indexed) : List (Nat × Indexed) → List (Nat × Indexed)
  | [] => [(k, v)]
  | (k2, v2) :: t =>
    if k < k2 then (k, v) :: (k2, v2) :: t
    else if k = k2 then (k, v) :: t
    else (k2, v2) :: bmapInsert k v t

/-- The session states of a Session in the map's natural (tag-sorted) order,
as iterated by `s.session_states.values()` in `enc_session`. -/
def statesOf (s : Session) : List SessionState :=
  s.session_states.map (fun p => p.2.val)

inductive DecodeSessionError : Type
  | LocalIdentityChanged (k : Nat)
  | Other (m : String)
deriving DecidableEq

abbrev DecS (α : Type) : Type := DecE DecodeSessionError α

/-- `From<DecodingError> for DecodeSessionError`: an inner decoding failure
propagated by `try!` becomes `DecodeSessionError::Other`. -/
def liftD {α : Type} (p : Dec α) : DecS α := fun b =>
  match p b with
  | .error m => .error (.Other m)
  | .ok z => .ok z

def enc_session (s : Session) : Bytes :=
  enc_session_version s.version ++
  (enc_session_tag s.session_tag ++
  (enc_identity_key s.local_identity.public_key ++
  (enc_identity_key s.remote_identity ++
  (enc_pending_prekey s.pending_prekey ++
  (encUsize s.session_states.length ++
  encAll enc_session_state (statesOf s))))))

/-- The decode loop of `dec_session` (lines 136-142): reads `k` states,
inserting each under its own tag with the running insertion counter. -/
def dec_states : Nat → Nat → List (Nat × Indexed) → Dec (List (Nat × Indexed) × Nat)
  | 0, c, rb => dpure (rb, c)
  | k + 1, c, rb =>
    dbind dec_session_state (fun s =>
      dec_states k (c + 1) (bmapInsert s.session_tag ⟨c, s⟩ rb))

def dec_session (ident : IdentityKeyPair) : DecS Session :=
  dbind (liftD dec_session_version) (fun vs =>
  dbind (liftD dec_session_tag) (fun tg =>
  dbind (liftD dec_identity_key) (fun li =>
    if li ≠ ident.public_key then dfail (.LocalIdentityChanged li)
    else
      dbind (liftD dec_identity_key) (fun ri =>
      dbind (liftD dec_pending_prekey) (fun pp =>
      dbind (liftD decUsize) (fun ls =>
      dbind (liftD (dec_states ls 0 [])) (fun rc =>
        dpure { version := vs
              , session_tag := tg
              , counter := rc.2
              , local_identity := ident
              , remote_identity := ri
              , pending_prekey := pp
              , session_states := rc.1 })))))))

-- Validity (modelled) and canonical forms ------------------------------------

abbrev ValidChainKey (k : ChainKey) : Prop := k.key < 2 ^ 32 ∧ k.idx < 2 ^ 32

abbrev ValidSendChain (s : SendChain) : Prop :=
  ValidChainKey s.chain_key ∧
  s.ratchet_key.secret_key < 2 ^ 32 ∧ s.ratchet_key.public_key < 2 ^ 32

abbrev ValidRecvChain (r : RecvChain) : Prop :=
  ValidChainKey r.chain_key ∧ r.ratchet_key < 2 ^ 32

abbrev ValidMsgKeys (m : MessageKeys) : Prop :=
  m.cipher_key < 2 ^ 32 ∧ m.mac_key < 2 ^ 32 ∧ m.counter < 2 ^ 32

abbrev ValidState (s : SessionState) : Prop :=
  s.session_tag < 2 ^ 32 ∧
  (∀ r ∈ s.recv_chains, ValidRecvChain r) ∧
  s.recv_chains.length < 2 ^ 64 ∧
  ValidSendChain s.send_chain ∧
  s.root_key.key < 2 ^ 32 ∧
  s.prev_counter < 2 ^ 32 ∧
  (∀ m ∈ s.skipped_msgkeys, ValidMsgKeys m) ∧
  s.skipped_msgkeys.length < 2 ^ 64

/-- The session-state collection is strictly sorted by tag (the `BTreeMap`
representation invariant). -/
abbrev SortedKeys (l : List (Nat × Indexed)) : Prop :=
  List.Pairwise (fun a b => a.1 < b.1) l

/-- Modelled from the spec: the structural invariants every in-range Session
satisfies — field values fit their wire widths, the state collection is the
sorted map with each state reachable under its own tag (§3 invariants).
`Session` itself and its construction live outside this module. -/
abbrev ValidSessionCore (s : Session) : Prop :=
  s.session_tag < 2 ^ 32 ∧
  s.local_identity.public_key < 2 ^ 32 ∧
  s.remote_identity < 2 ^ 32 ∧
  (∀ q ∈ s.pending_prekey.toList, q.1 < 2 ^ 32 ∧ q.2 < 2 ^ 32) ∧
  s.session_states.length < 2 ^ 64 ∧
  SortedKeys s.session_states ∧
  (∀ p ∈ s.session_states, p.1 = p.2.val.session_tag ∧ ValidState p.2.val)

/-- Modelled from the spec: a validly constructed Session additionally keeps
its insertion counter equal to the number of held states (each insertion both
bumped the counter and added a state; pruning is external and out of scope). -/
abbrev ValidSession (s : Session) : Prop :=
  ValidSessionCore s ∧ s.counter = s.session_states.length

/-- Reassign insertion indices `i, i+1, ...` in collection order — what the
decode loop produces for a stream whose states appear in tag-sorted order. -/
def canonStates : List (Nat × Indexed) → Nat → List (Nat × Indexed)
  | [], _ => []
  | p :: t, i => (p.1, ⟨i, p.2.val⟩) :: canonStates t (i + 1)

/-- The accumulated session-state map after decoding the states `ss` in
stream order, starting from counter `c` and map `rb` (the pure content of the
`dec_states` loop). -/
def foldIns : List SessionState → Nat → List (Nat × Indexed) → List (Nat × Indexed)
  | [], _, rb => rb
  | s :: t, c, rb => foldIns t (c + 1) (bmapInsert s.session_tag ⟨c, s⟩ rb)

/-- A stream prefix: `Starts t b` when `b` begins with `t`. -/
def Starts (t b : Bytes) : Prop := ∃ u, t ++ u = b

/-- Exactness and truncation-failure of a decoder against one encoding:
on `bs` followed by anything it returns `x` and the leftover, and on every
strict front portion of `bs` it fails with `err`. -/
def GoodAtE {ε α : Type} (p : DecE ε α) (err : ε) (bs : Bytes) (x : α) : Prop :=
  (∀ r, p (bs ++ r) = .ok (x, r)) ∧
  (∀ t, Starts t bs → t ≠ bs → p t = .error err)

/-- The capacities eagerly requested by `VecDeque::with_capacity` during
`dec_session_state`, in request order: mirrors lines 174-175 (`lr` requested
right after the receive-chain count is read) and 182-183 (`lv` after the
skipped-message-keys count), before any element is checked to exist. -/
def dec_session_state_capacities (b : Bytes) : List Nat :=
  match dec_session_tag b with
  | .error _ => []
  | .ok (_, b1) =>
    match decUsize b1 with
    | .error _ => []
    | .ok (lr, b2) =>
      lr :: (match decMany dec_recv_chain lr b2 with
        | .error _ => []
        | .ok (_, b3) =>
          match dec_send_chain b3 with
          | .error _ => []
          | .ok (_, b4) =>
            match dec_root_key b4 with
            | .error _ => []
            | .ok (_, b5) =>
              match dec_counter b5 with
              | .error _ => []
              | .ok (_, b6) =>
                match decUsize b6 with
                | .error _ => []
                | .ok (lv, _) => [lv])

-- Concrete data for witnesses and counterexamples ----------------------------

def wIdent : IdentityKeyPair := ⟨3, 9⟩

def wStateA : SessionState := ⟨20, [], ⟨⟨1, 2⟩, ⟨4, 5⟩⟩, ⟨6⟩, 7, []⟩

def wStateB : SessionState := ⟨21, [⟨⟨1, 2⟩, 3⟩], ⟨⟨1, 2⟩, ⟨4, 5⟩⟩, ⟨6⟩, 7, [⟨1, 2, 3⟩]⟩

/-- A small valid session: two states under distinct tags, stale insertion
indices 5 and 3, counter equal to the number of held states. -/
def wSession : Session :=
  ⟨.V1, 10, 2, wIdent, 11, some (7, 12), [(20, ⟨5, wStateA⟩), (21, ⟨3, wStateB⟩)]⟩

/-- `wSession` with its insertion indices re-assigned 0.. in collection
order, as decode produces. -/
def wCanon : Session :=
  { wSession with session_states := canonStates wSession.session_states 0 }

def dupIdent : IdentityKeyPair := ⟨2, 8⟩

def dupState1 : SessionState := ⟨30, [], ⟨⟨1, 1⟩, ⟨1, 1⟩⟩, ⟨1⟩, 1, []⟩

def dupState2 : SessionState := ⟨30, [], ⟨⟨2, 2⟩, ⟨2, 2⟩⟩, ⟨2⟩, 2, []⟩

/-- A well-formed stream whose state section carries two states with the
same tag 30. -/
def dupStream : Bytes :=
  encU32 1 ++ (encU32 6 ++ (encU32 8 ++ (encU32 13 ++ (encU32 1 ++
    (encUsize 2 ++ (enc_session_state dupState1 ++ enc_session_state dupState2))))))

/-- What `dec_session` makes of `dupStream`: the second state displaced the
first under tag 30, the counter still counts both. -/
def dupSession : Session := ⟨.V1, 6, 2, dupIdent, 13, none, [(30, ⟨1, dupState2⟩)]⟩

/-- A 12-byte stream: a session tag followed by a receive-chain count
claiming a million entries. -/
def c5stream : Bytes := encU32 0 ++ encUsize 1000000

-- Primitive lemmas -----------------------------------------------------------

theorem version_eq (v : Version) : v = Version.V1 := by cases v; rfl

theorem natToBytes_length (k n : Nat) : (natToBytes k n).length = k := by
  induction k generalizing n with
  | zero => rfl
  | succ k ih => simp [natToBytes, ih]

theorem readBEAux_exact (k acc n : Nat) (r : Bytes) :
    readBEAux k acc (natToBytes k n ++ r) = .ok (acc * 256 ^ k + n % 256 ^ k, r) := by
  induction k generalizing acc with
  | zero => simp [readBEAux, natToBytes, dpure, Nat.mod_one]
  | succ k ih =>
    have ih2 := ih (acc * 256 + n / 256 ^ k % 256)
    simp only [readBEAux, natToBytes, List.cons_append, dbind, readByte]
    rw [ih2]
    have hm : n % 256 ^ (k + 1) = n % 256 ^ k + 256 ^ k * (n / 256 ^ k % 256) := by
      rw [pow_succ]
      exact Nat.mod_mul
    rw [hm]
    congr 1
    congr 1
    ring

theorem readBEAux_short (k acc : Nat) (b : Bytes) (h : b.length < k) :
    readBEAux k acc b = .error prem := by
  induction k generalizing acc b with
  | zero => omega
  | succ k ih =>
    cases b with
    | nil => simp [readBEAux, dbind, readByte]
    | cons x b =>
      simp only [readBEAux, dbind, readByte]
      exact ih _ b (by simpa using Nat.lt_of_succ_lt_succ h)

theorem readBEAux_ok_lt (k acc : Nat) (b r : Bytes) (v : Nat)
    (h : readBEAux k acc b = .ok (v, r)) : v < (acc + 1) * 256 ^ k := by
  induction k generalizing acc b with
  | zero =>
    simp only [readBEAux, dpure, Except.ok.injEq, Prod.mk.injEq] at h
    omega
  | succ k ih =>
    cases b with
    | nil => simp [readBEAux, dbind, readByte] at h
    | cons x b =>
      simp only [readBEAux, dbind, readByte] at h
      have hb := ih (acc * 256 + x.val) b h
      have hx : x.val + 1 ≤ 256 := x.isLt
      calc v < (acc * 256 + x.val + 1) * 256 ^ k := hb
        _ ≤ ((acc + 1) * 256) * 256 ^ k := by
            have : acc * 256 + x.val + 1 ≤ (acc + 1) * 256 := by nlinarith
            exact Nat.mul_le_mul_right _ this
        _ = (acc + 1) * 256 ^ (k + 1) := by ring

-- Prefix machinery ------------------------------------------------------------

theorem starts_nil (b : Bytes) : Starts [] b := ⟨b, rfl⟩

theorem starts_length_lt {t b : Bytes} (h : Starts t b) (hne : t ≠ b) :
    t.length < b.length := by
  obtain ⟨u, rfl⟩ := h
  cases u with
  | nil => simp at hne
  | cons x u => simp

theorem starts_split {t a c : Bytes} (h : Starts t (a ++ c)) :
    (Starts t a ∧ t ≠ a) ∨ ∃ u, t = a ++ u ∧ Starts u c := by
  induction a generalizing t with
  | nil => exact Or.inr ⟨t, by simpa using h⟩
  | cons x a ih =>
    cases t with
    | nil => exact Or.inl ⟨starts_nil _, by simp⟩
    | cons y t =>
      obtain ⟨u, hu⟩ := h
      simp only [List.cons_append, List.cons.injEq] at hu
      obtain ⟨rfl, hu⟩ := hu
      rcases ih ⟨u, hu⟩ with ⟨⟨w, hw⟩, hne⟩ | ⟨w, rfl, hw⟩
      · exact Or.inl ⟨⟨w, by simp [hw]⟩, by simpa using hne⟩
      · exact Or.inr ⟨w, by simp, hw⟩

-- Decoder combinator lemmas ----------------------------------------------------

theorem dbind_ok {ε α β : Type} (p : DecE ε α) (f : α → DecE ε β) (b : Bytes)
    (z : β × Bytes) :
    dbind p f b = .ok z ↔ ∃ a b1, p b = .ok (a, b1) ∧ f a b1 = .ok z := by
  unfold dbind
  cases hp : p b with
  | error e => simp
  | ok w =>
    obtain ⟨a1, b1⟩ := w
    constructor
    · intro h; exact ⟨a1, b1, rfl, h⟩
    · rintro ⟨a, b2, heq, hf⟩
      cases heq
      exact hf

theorem dpure_ok {ε α : Type} (x : α) (b : Bytes) (z : α × Bytes) :
    (dpure x : DecE ε α) b = .ok z ↔ z = (x, b) := by
  unfold dpure
  constructor
  · intro h; cases h; rfl
  · intro h; cases h; rfl

theorem liftD_ok {α : Type} (p : Dec α) (b : Bytes) (z : α × Bytes) :
    liftD p b = .ok z ↔ p b = .ok z := by
  unfold liftD
  cases hp : p b with
  | error e => simp
  | ok w => simp

theorem dbind_ok_step {ε α β : Type} {p : DecE ε α} {f : α → DecE ε β} {b b1 : Bytes}
    {a : α} (h : p b = .ok (a, b1)) : dbind p f b = f a b1 := by
  unfold dbind
  rw [h]

theorem dbind_error_step {ε α β : Type} {p : DecE ε α} {f : α → DecE ε β} {b : Bytes}
    {e : ε} (h : p b = .error e) : dbind p f b = .error e := by
  unfold dbind
  rw [h]

theorem liftD_of_ok {α : Type} {p : Dec α} {b : Bytes} {z : α × Bytes}
    (h : p b = .ok z) : liftD p b = .ok z := (liftD_ok p b z).2 h

theorem liftD_of_error {α : Type} {p : Dec α} {b : Bytes} {m : String}
    (h : p b = .error m) : liftD p b = .error (.Other m) := by
  unfold liftD
  rw [h]

theorem liftD_error_other {α : Type} {p : Dec α} {b : Bytes} {e : DecodeSessionError}
    (h : liftD p b = .error e) : ∃ m, e = .Other m := by
  unfold liftD at h
  cases hp : p b with
  | error m => rw [hp] at h; exact ⟨m, by cases h; rfl⟩
  | ok w => rw [hp] at h; cases h

-- GoodAtE: exactness plus truncation failure ----------------------------------

theorem goodAtE_pure {ε α : Type} (err : ε) (x : α) :
    GoodAtE (dpure x) err [] x := by
  constructor
  · intro r; rfl
  · intro t ht hne
    obtain ⟨u, hu⟩ := ht
    exact absurd (List.append_eq_nil.1 hu).1 hne

theorem goodAtE_bind {ε α β : Type} {p : DecE ε α} {f : α → DecE ε β} {err : ε}
    {bs cs : Bytes} {x : α} {y : β}
    (hp : GoodAtE p err bs x) (hf : GoodAtE (f x) err cs y) :
    GoodAtE (dbind p f) err (bs ++ cs) y := by
  constructor
  · intro r
    rw [List.append_assoc]
    rw [dbind_ok_step (hp.1 (cs ++ r))]
    exact hf.1 r
  · intro t ht hne
    rcases starts_split ht with ⟨hs, hte⟩ | ⟨u, rfl, hu⟩
    · exact dbind_error_step (hp.2 t hs hte)
    · have hucs : u ≠ cs := by
        rintro rfl
        exact hne rfl
      rw [dbind_ok_step (hp.1 u)]
      exact hf.2 u hu hucs

theorem goodAtE_bind_nil {ε α β : Type} {p : DecE ε α} {f : α → DecE ε β} {err : ε}
    {bs : Bytes} {x : α} {y : β}
    (hp : GoodAtE p err bs x) (hf : GoodAtE (f x) err [] y) :
    GoodAtE (dbind p f) err bs y := by
  have h := goodAtE_bind hp hf
  rwa [List.append_nil] at h

theorem goodAtE_lift {p : Dec α} {m : String} {bs : Bytes} {x : α}
    (h : GoodAtE p m bs x) : GoodAtE (liftD p) (.Other m) bs x := by
  constructor
  · intro r; exact liftD_of_ok (h.1 r)
  · intro t ht hne; exact liftD_of_error (h.2 t ht hne)

theorem goodAtE_mono {ε α : Type} {p : DecE ε α} {err : ε} {bs : Bytes} {x y : α}
    (h : GoodAtE p err bs x) (hxy : x = y) : GoodAtE p err bs y := hxy ▸ h

theorem good_decU32 {n : Nat} (h : n < 2 ^ 32) :
    GoodAtE decU32 prem (encU32 n) n := by
  constructor
  · intro r
    have he := readBEAux_exact 4 0 n r
    have : n % 256 ^ 4 = n := Nat.mod_eq_of_lt (by norm_num at h ⊢; omega)
    rw [this] at he
    simpa using he
  · intro t ht hne
    have hlen : t.length < 4 := by
      have := starts_length_lt ht hne
      rwa [show (encU32 n).length = 4 from natToBytes_length 4 n] at this
    exact readBEAux_short 4 0 t hlen

theorem good_decUsize {n : Nat} (h : n < 2 ^ 64) :
    GoodAtE decUsize prem (encUsize n) n := by
  constructor
  · intro r
    have he := readBEAux_exact 8 0 n r
    have : n % 256 ^ 8 = n := Nat.mod_eq_of_lt (by norm_num at h ⊢; omega)
    rw [this] at he
    simpa using he
  · intro t ht hne
    have hlen : t.length < 8 := by
      have := starts_length_lt ht hne
      rwa [show (encUsize n).length = 8 from natToBytes_length 8 n] at this
    exact readBEAux_short 8 0 t hlen

-- GoodAtE for the leaf codecs ---------------------------------------------------

theorem good_cipher_key {k : Nat} (h : k < 2 ^ 32) :
    GoodAtE dec_cipher_key prem (enc_cipher_key k) k := good_decU32 h

theorem good_mac_key {k : Nat} (h : k < 2 ^ 32) :
    GoodAtE dec_mac_key prem (enc_mac_key k) k := good_decU32 h

theorem good_public_key {k : Nat} (h : k < 2 ^ 32) :
    GoodAtE dec_public_key prem (enc_public_key k) k := good_decU32 h

theorem good_identity_key {k : Nat} (h : k < 2 ^ 32) :
    GoodAtE dec_identity_key prem (enc_identity_key k) k := good_decU32 h

theorem good_counter {c : Nat} (h : c < 2 ^ 32) :
    GoodAtE dec_counter prem (enc_counter c) c := good_decU32 h

theorem good_prekey_id {i : Nat} (h : i < 2 ^ 32) :
    GoodAtE dec_prekey_id prem (enc_prekey_id i) i := good_decU32 h

theorem good_session_tag {t : Nat} (h : t < 2 ^ 32) :
    GoodAtE dec_session_tag prem (enc_session_tag t) t := good_decU32 h

theorem good_keypair {kp : KeyPair} (h1 : kp.secret_key < 2 ^ 32)
    (h2 : kp.public_key < 2 ^ 32) :
    GoodAtE dec_keypair prem (enc_keypair kp) kp := by
  refine goodAtE_bind (good_decU32 h1) ?_
  exact goodAtE_bind_nil (good_decU32 h2) (goodAtE_pure prem kp)

theorem good_chain_key {k : ChainKey} (h : ValidChainKey k) :
    GoodAtE dec_chain_key prem (enc_chain_key k) k := by
  refine goodAtE_bind (good_mac_key h.1) ?_
  exact goodAtE_bind_nil (good_counter h.2) (goodAtE_pure prem k)

theorem good_root_key {k : RootKey} (h : k.key < 2 ^ 32) :
    GoodAtE dec_root_key prem (enc_root_key k) k :=
  goodAtE_bind_nil (good_cipher_key h) (goodAtE_pure prem k)

theorem good_send_chain {s : SendChain} (h : ValidSendChain s) :
    GoodAtE dec_send_chain prem (enc_send_chain s) s := by
  refine goodAtE_bind (good_chain_key h.1) ?_
  exact goodAtE_bind_nil (good_keypair h.2.1 h.2.2) (goodAtE_pure prem s)

theorem good_recv_chain {r : RecvChain} (h : ValidRecvChain r) :
    GoodAtE dec_recv_chain prem (enc_recv_chain r) r := by
  refine goodAtE_bind (good_chain_key h.1) ?_
  exact goodAtE_bind_nil (good_public_key h.2) (goodAtE_pure prem r)

theorem good_msg_keys {m : MessageKeys} (h : ValidMsgKeys m) :
    GoodAtE dec_msg_keys prem (enc_msg_keys m) m := by
  refine goodAtE_bind (good_cipher_key h.1) ?_
  refine goodAtE_bind (good_mac_key h.2.1) ?_
  exact goodAtE_bind_nil (good_counter h.2.2) (goodAtE_pure prem m)

theorem good_session_version (v : Version) :
    GoodAtE dec_session_version prem (enc_session_version v) Version.V1 :=
  goodAtE_bind_nil (good_decU32 (show 1 < 2 ^ 32 by norm_num))
    (goodAtE_pure prem Version.V1)

theorem good_decMany {α : Type} {p : Dec α} {enc : α → Bytes} {xs : List α}
    (h : ∀ a ∈ xs, GoodAtE p prem (enc a) a) :
    GoodAtE (decMany p xs.length) prem (encAll enc xs) xs := by
  induction xs with
  | nil => exact goodAtE_pure prem []
  | cons x xs ih =>
    refine goodAtE_bind (h x (List.mem_cons_self x xs)) ?_
    refine goodAtE_bind_nil (ih (fun a ha => h a (List.mem_cons_of_mem x ha))) ?_
    exact goodAtE_pure prem (x :: xs)

theorem good_session_state {st : SessionState} (h : ValidState st) :
    GoodAtE dec_session_state prem (enc_session_state st) st := by
  obtain ⟨h1, h2, h3, h4, h5, h6, h7, h8⟩ := h
  refine goodAtE_bind (good_session_tag h1) ?_
  refine goodAtE_bind (good_decUsize h3) ?_
  refine goodAtE_bind (good_decMany (fun a ha => good_recv_chain (h2 a ha))) ?_
  refine goodAtE_bind (good_send_chain h4) ?_
  refine goodAtE_bind (good_root_key h5) ?_
  refine goodAtE_bind (good_counter h6) ?_
  refine goodAtE_bind (good_decUsize h8) ?_
  refine goodAtE_bind_nil (good_decMany (fun a ha => good_msg_keys (h7 a ha))) ?_
  exact goodAtE_pure prem st

theorem good_pending_prekey {pp : Option (Nat × Nat)}
    (h : ∀ q ∈ pp.toList, q.1 < 2 ^ 32 ∧ q.2 < 2 ^ 32) :
    GoodAtE dec_pending_prekey prem (enc_pending_prekey pp) pp := by
  cases pp with
  | none =>
    exact goodAtE_bind_nil (good_decU32 (show 1 < 2 ^ 32 by norm_num))
      (goodAtE_pure prem none)
  | some q =>
    obtain ⟨id, pk⟩ := q
    have hq := h (id, pk) (by simp)
    refine goodAtE_bind (good_decU32 (show 2 < 2 ^ 32 by norm_num)) ?_
    refine goodAtE_bind (good_prekey_id hq.1) ?_
    exact goodAtE_bind_nil (good_public_key hq.2) (goodAtE_pure prem (some (id, pk)))

-- BTreeMap model lemmas --------------------------------------------------------

theorem bmapInsert_append {k : Nat} {v : Indexed} {rb : List (Nat × Indexed)}
    (h : ∀ p ∈ rb, p.1 < k) : bmapInsert k v rb = rb ++ [(k, v)] := by
  induction rb with
  | nil => rfl
  | cons q t ih =>
    obtain ⟨k2, v2⟩ := q
    have hk2 : k2 < k := h (k2, v2) (List.mem_cons_self _ _)
    simp only [bmapInsert]
    rw [if_neg (by omega), if_neg (by omega)]
    rw [ih (fun p hp => h p (List.mem_cons_of_mem _ hp))]
    simp

theorem bmapInsert_mem {k : Nat} {v : Indexed} {rb : List (Nat × Indexed)}
    {p : Nat × Indexed} (h : p ∈ bmapInsert k v rb) : p = (k, v) ∨ p ∈ rb := by
  induction rb with
  | nil => simpa [bmapInsert] using h
  | cons q t ih =>
    obtain ⟨k2, v2⟩ := q
    simp only [bmapInsert] at h
    by_cases h1 : k < k2
    · rw [if_pos h1] at h
      simp only [List.mem_cons] at h
      rcases h with h | h | h
      · exact Or.inl h
      · exact Or.inr (by simp [h])
      · exact Or.inr (by simp [h])
    · rw [if_neg h1] at h
      by_cases h2 : k = k2
      · rw [if_pos h2] at h
        simp only [List.mem_cons] at h
        rcases h with h | h
        · exact Or.inl h
        · exact Or.inr (by simp [h])
      · rw [if_neg h2] at h
        simp only [List.mem_cons] at h
        rcases h with h | h
        · exact Or.inr (by simp [h])
        · rcases ih h with h | h
          · exact Or.inl h
          · exact Or.inr (by simp [h])

theorem bmapInsert_fst_mem {k k3 : Nat} {v : Indexed} {rb : List (Nat × Indexed)} :
    k3 ∈ (bmapInsert k v rb).map Prod.fst ↔ k3 = k ∨ k3 ∈ rb.map Prod.fst := by
  induction rb with
  | nil => simp [bmapInsert]
  | cons q t ih =>
    obtain ⟨k2, v2⟩ := q
    simp only [bmapInsert]
    by_cases h1 : k < k2
    · rw [if_pos h1]
      simp only [List.map_cons, List.mem_cons]
    · rw [if_neg h1]
      by_cases h2 : k = k2
      · rw [if_pos h2]
        subst h2
        simp only [List.map_cons, List.mem_cons]
        tauto
      · rw [if_neg h2]
        simp only [List.map_cons, List.mem_cons] at ih ⊢
        rw [ih]
        tauto

theorem bmapInsert_sorted {k : Nat} {v : Indexed} {rb : List (Nat × Indexed)}
    (h : SortedKeys rb) : SortedKeys (bmapInsert k v rb) := by
  induction rb with
  | nil => simp [bmapInsert, SortedKeys]
  | cons q t ih =>
    obtain ⟨k2, v2⟩ := q
    simp only [SortedKeys, List.pairwise_cons] at h
    simp only [bmapInsert]
    by_cases h1 : k < k2
    · rw [if_pos h1]
      refine List.Pairwise.cons ?_ (List.Pairwise.cons h.1 h.2)
      intro p hp
      rcases List.mem_cons.1 hp with rfl | hp
      · simpa using h1
      · exact lt_trans h1 (h.1 p hp)
    · rw [if_neg h1]
      by_cases h2 : k = k2
      · rw [if_pos h2]
        subst h2
        exact List.Pairwise.cons h.1 h.2
      · rw [if_neg h2]
        refine List.Pairwise.cons ?_ (ih h.2)
        intro p hp
        rcases bmapInsert_mem hp with rfl | hp
        · simp; omega
        · exact h.1 p hp

theorem bmapInsert_length_le (k : Nat) (v : Indexed) (rb : List (Nat × Indexed)) :
    (bmapInsert k v rb).length ≤ rb.length + 1 := by
  induction rb with
  | nil => simp [bmapInsert]
  | cons q t ih =>
    obtain ⟨k2, v2⟩ := q
    simp only [bmapInsert]
    by_cases h1 : k < k2
    · rw [if_pos h1]; simp
    · rw [if_neg h1]
      by_cases h2 : k = k2
      · rw [if_pos h2]; simp
      · rw [if_neg h2]
        simp only [List.length_cons]
        omega

theorem bmapInsert_length_fresh (k : Nat) (v : Indexed) {rb : List (Nat × Indexed)}
    (h : k ∉ rb.map Prod.fst) : (bmapInsert k v rb).length = rb.length + 1 := by
  induction rb with
  | nil => simp [bmapInsert]
  | cons q t ih =>
    obtain ⟨k2, v2⟩ := q
    simp only [List.map_cons, List.mem_cons, not_or] at h
    simp only [bmapInsert]
    by_cases h1 : k < k2
    · rw [if_pos h1]; simp
    · rw [if_neg h1, if_neg h.1]
      simp only [List.length_cons, ih h.2]

theorem bmapInsert_length_stale (k : Nat) (v : Indexed) {rb : List (Nat × Indexed)}
    (hs : SortedKeys rb) (h : k ∈ rb.map Prod.fst) :
    (bmapInsert k v rb).length = rb.length := by
  induction rb with
  | nil => simp at h
  | cons q t ih =>
    obtain ⟨k2, v2⟩ := q
    simp only [SortedKeys, List.pairwise_cons] at hs
    simp only [List.map_cons, List.mem_cons] at h
    simp only [bmapInsert]
    by_cases h1 : k < k2
    · exfalso
      rcases h with rfl | h
      · omega
      · obtain ⟨p, hp, rfl⟩ := List.mem_map.1 h
        have := hs.1 p hp
        omega
    · rw [if_neg h1]
      by_cases h2 : k = k2
      · rw [if_pos h2]; simp
      · rw [if_neg h2]
        simp only [List.length_cons]
        rw [ih hs.2 (by tauto)]

theorem bmapInsert_idx_perm (k : Nat) (v : Indexed) (rb : List (Nat × Indexed))
    (h : (bmapInsert k v rb).length = rb.length + 1) :
    List.Perm ((bmapInsert k v rb).map (fun p => p.2.idx))
      (v.idx :: rb.map (fun p => p.2.idx)) := by
  induction rb with
  | nil => simp [bmapInsert]
  | cons q t ih =>
    obtain ⟨k2, v2⟩ := q
    simp only [bmapInsert] at h ⊢
    by_cases h1 : k < k2
    · rw [if_pos h1]
      simp
    · rw [if_neg h1] at h ⊢
      by_cases h2 : k = k2
      · rw [if_pos h2] at h
        simp only [List.length_cons] at h
        omega
      · rw [if_neg h2] at h ⊢
        simp only [List.length_cons] at h
        have hrec := ih (by omega)
        simp only [List.map_cons]
        exact (List.Perm.cons v2.idx hrec).trans
          (List.Perm.swap v.idx v2.idx (t.map (fun p => p.2.idx)))

-- foldIns lemmas ----------------------------------------------------------------

theorem foldIns_sorted {ss : List SessionState} {c : Nat} {rb : List (Nat × Indexed)}
    (h : SortedKeys rb) : SortedKeys (foldIns ss c rb) := by
  induction ss generalizing c rb with
  | nil => exact h
  | cons st t ih => exact ih (bmapInsert_sorted h)

theorem foldIns_mem {ss : List SessionState} {c : Nat} {rb : List (Nat × Indexed)}
    {p : Nat × Indexed} (h : p ∈ foldIns ss c rb) :
    (∃ st ∈ ss, ∃ i, p = (st.session_tag, ⟨i, st⟩)) ∨ p ∈ rb := by
  induction ss generalizing c rb with
  | nil => exact Or.inr h
  | cons st t ih =>
    rcases ih h with ⟨st2, hst2, i, rfl⟩ | hmem
    · exact Or.inl ⟨st2, List.mem_cons_of_mem _ hst2, i, rfl⟩
    · rcases bmapInsert_mem hmem with rfl | hmem
      · exact Or.inl ⟨st, List.mem_cons_self _ _, c, rfl⟩
      · exact Or.inr hmem

theorem foldIns_length_le (ss : List SessionState) (c : Nat)
    (rb : List (Nat × Indexed)) : (foldIns ss c rb).length ≤ rb.length + ss.length := by
  induction ss generalizing c rb with
  | nil => simp [foldIns]
  | cons st t ih =>
    have h1 := ih (c + 1) (bmapInsert st.session_tag ⟨c, st⟩ rb)
    have h2 := bmapInsert_length_le st.session_tag ⟨c, st⟩ rb
    simp only [foldIns, List.length_cons]
    omega

theorem foldIns_length_lt {ss : List SessionState} {c : Nat}
    {rb : List (Nat × Indexed)} (hs : SortedKeys rb)
    (h : (∃ st ∈ ss, st.session_tag ∈ rb.map Prod.fst) ∨
         ¬ (ss.map (fun st => st.session_tag)).Nodup) :
    (foldIns ss c rb).length < rb.length + ss.length := by
  induction ss generalizing c rb with
  | nil =>
    exfalso
    rcases h with ⟨st, hst, _⟩ | h
    · simp at hst
    · simp at h
  | cons st t ih =>
    simp only [foldIns, List.length_cons]
    by_cases hst : st.session_tag ∈ rb.map Prod.fst
    · have hlen := bmapInsert_length_stale st.session_tag ⟨c, st⟩ hs hst
      have := foldIns_length_le t (c + 1) (bmapInsert st.session_tag ⟨c, st⟩ rb)
      omega
    · have hcase : (∃ st2 ∈ t, st2.session_tag ∈
          (bmapInsert st.session_tag ⟨c, st⟩ rb).map Prod.fst) ∨
          ¬ (t.map (fun st2 => st2.session_tag)).Nodup := by
        rcases h with ⟨st2, hst2, hmem⟩ | h
        · rcases List.mem_cons.1 hst2 with rfl | hst2
          · exact absurd hmem hst
          · exact Or.inl ⟨st2, hst2, bmapInsert_fst_mem.2 (Or.inr hmem)⟩
        · simp only [List.map_cons, List.nodup_cons, not_and_or] at h
          rcases h with h | h
          · rw [not_not] at h
            obtain ⟨st2, hst2, htag⟩ := List.mem_map.1 h
            exact Or.inl ⟨st2, hst2, bmapInsert_fst_mem.2 (Or.inl htag)⟩
          · exact Or.inr h
      have hlen := bmapInsert_length_fresh st.session_tag ⟨c, st⟩ hst
      have hrec := @ih (c + 1) (bmapInsert st.session_tag ⟨c, st⟩ rb)
        (bmapInsert_sorted hs) hcase
      omega

theorem foldIns_idx_perm {ss : List SessionState} {c : Nat}
    {rb : List (Nat × Indexed)}
    (h : (foldIns ss c rb).length = rb.length + ss.length) :
    List.Perm ((foldIns ss c rb).map (fun p => p.2.idx))
      (rb.map (fun p => p.2.idx) ++ (List.range ss.length).map (fun i => c + i)) := by
  induction ss generalizing c rb with
  | nil => simp [foldIns]
  | cons st t ih =>
    simp only [foldIns] at h ⊢
    set rb1 := bmapInsert st.session_tag ⟨c, st⟩ rb with hrb1
    have hle1 : rb1.length ≤ rb.length + 1 := bmapInsert_length_le _ _ _
    have hle2 := foldIns_length_le t (c + 1) rb1
    simp only [List.length_cons] at h
    have h1 : rb1.length = rb.length + 1 := by omega
    have h2 : (foldIns t (c + 1) rb1).length = rb1.length + t.length := by omega
    have hperm1 := ih h2
    have hperm2 := bmapInsert_idx_perm st.session_tag ⟨c, st⟩ rb h1
    have hstep : List.Perm ((foldIns t (c + 1) rb1).map (fun p => p.2.idx))
        ((c :: rb.map (fun p => p.2.idx)) ++
          (List.range t.length).map (fun i => c + 1 + i)) :=
      hperm1.trans (List.Perm.append_right _ hperm2)
    have hrange : (List.range (t.length + 1)).map (fun i => c + i) =
        c :: (List.range t.length).map (fun i => c + 1 + i) := by
      rw [List.range_succ_eq_map, List.map_cons, List.map_map]
      refine List.ext_getElem (by simp) ?_
      intro i h1 h2
      rcases i with _ | i
      · simp
      · simp only [List.getElem_cons_succ, List.getElem_map, List.getElem_range,
          Function.comp_apply]
        omega
    rw [List.length_cons, hrange]
    refine hstep.trans ?_
    simp only [List.cons_append]
    exact (List.perm_middle).symm

theorem foldIns_canon {m : List (Nat × Indexed)} {c : Nat} {rb : List (Nat × Indexed)}
    (hs : SortedKeys m) (hk : ∀ p ∈ m, p.1 = p.2.val.session_tag)
    (hb : ∀ p ∈ rb, ∀ q ∈ m, p.1 < q.1) :
    foldIns (m.map (fun p => p.2.val)) c rb = rb ++ canonStates m c := by
  induction m generalizing c rb with
  | nil => simp [foldIns, canonStates]
  | cons q t ih =>
    obtain ⟨k, iv⟩ := q
    simp only [SortedKeys, List.pairwise_cons] at hs
    have hkq : k = iv.val.session_tag := hk (k, iv) (List.mem_cons_self _ _)
    simp only [List.map_cons, foldIns, canonStates]
    have hins : bmapInsert iv.val.session_tag ⟨c, iv.val⟩ rb = rb ++ [(k, ⟨c, iv.val⟩)] := by
      rw [← hkq]
      exact bmapInsert_append (fun p hp => hb p hp (k, iv) (List.mem_cons_self _ _))
    rw [hins]
    rw [ih hs.2 (fun p hp => hk p (List.mem_cons_of_mem _ hp)) ?_]
    · simp
    · intro p hp q hq
      rcases List.mem_append.1 hp with hp | hp
      · exact hb p hp q (List.mem_cons_of_mem _ hq)
      · simp only [List.mem_singleton] at hp
        subst hp
        exact hs.1 q hq

theorem good_dec_states {ss : List SessionState} (c : Nat) (rb : List (Nat × Indexed))
    (h : ∀ st ∈ ss, ValidState st) :
    GoodAtE (dec_states ss.length c rb) prem (encAll enc_session_state ss)
      (foldIns ss c rb, c + ss.length) := by
  induction ss generalizing c rb with
  | nil => exact goodAtE_mono (goodAtE_pure prem (rb, c)) (by simp [foldIns])
  | cons st t ih =>
    refine goodAtE_bind (good_session_state (h st (List.mem_cons_self _ _))) ?_
    refine goodAtE_mono
      (ih (c + 1) (bmapInsert st.session_tag ⟨c, st⟩ rb)
        (fun a ha => h a (List.mem_cons_of_mem _ ha))) ?_
    exact congrArg (Prod.mk _) (by simp only [List.length_cons]; omega)

-- The canonical round trip of a whole session ---------------------------------

theorem good_dec_session {s : Session} (h : ValidSessionCore s) :
    GoodAtE (dec_session s.local_identity) (DecodeSessionError.Other prem)
      (enc_session s)
      { s with counter := s.session_states.length,
               session_states := canonStates s.session_states 0 } := by
  obtain ⟨h1, h2, h3, h4, h5, h6, h7⟩ := h
  refine goodAtE_bind (goodAtE_lift (good_session_version s.version)) ?_
  refine goodAtE_bind (goodAtE_lift (good_session_tag h1)) ?_
  refine goodAtE_bind (goodAtE_lift (good_identity_key h2)) ?_
  rw [if_neg (show ¬ (s.local_identity.public_key ≠ s.local_identity.public_key)
        from fun hh => hh rfl)]
  refine goodAtE_bind (goodAtE_lift (good_identity_key h3)) ?_
  refine goodAtE_bind (goodAtE_lift (good_pending_prekey h4)) ?_
  refine goodAtE_bind (goodAtE_lift (good_decUsize h5)) ?_
  have hstval : ∀ a ∈ statesOf s, ValidState a := by
    intro a ha
    obtain ⟨p, hp, rfl⟩ := List.mem_map.1 ha
    exact (h7 p hp).2
  rw [show s.session_states.length = (statesOf s).length from by simp [statesOf]]
  refine goodAtE_bind_nil (goodAtE_lift (good_dec_states 0 [] hstval)) ?_
  refine goodAtE_mono (goodAtE_pure _ _) ?_
  have hc : foldIns (List.map (fun p => p.2.val) s.session_states) 0 [] =
      canonStates s.session_states 0 := by
    have := @foldIns_canon s.session_states 0 [] h6
      (fun p hp => (h7 p hp).1) (fun p hp => absurd hp (List.not_mem_nil p))
    simpa using this
  have hv := version_eq s.version
  simp [hc, hv, statesOf]

-- Validity of decoded values ----------------------------------------------------

theorem decU32_ok_lt {b r : Bytes} {v : Nat} (h : decU32 b = .ok (v, r)) :
    v < 2 ^ 32 := by
  have hb := readBEAux_ok_lt 4 0 b r v h
  have : (0 + 1) * 256 ^ 4 = 2 ^ 32 := by norm_num
  omega

theorem decUsize_ok_lt {b r : Bytes} {v : Nat} (h : decUsize b = .ok (v, r)) :
    v < 2 ^ 64 := by
  have hb := readBEAux_ok_lt 8 0 b r v h
  have : (0 + 1) * 256 ^ 8 = 2 ^ 64 := by norm_num
  omega

theorem dec_chain_key_ok {b r : Bytes} {k : ChainKey}
    (h : dec_chain_key b = .ok (k, r)) : ValidChainKey k := by
  simp only [dec_chain_key, dbind_ok, dpure_ok] at h
  obtain ⟨a, b1, ha, c, b2, hc, hz⟩ := h
  cases hz
  exact ⟨decU32_ok_lt ha, decU32_ok_lt hc⟩

theorem dec_keypair_ok {b r : Bytes} {k : KeyPair}
    (h : dec_keypair b = .ok (k, r)) :
    k.secret_key < 2 ^ 32 ∧ k.public_key < 2 ^ 32 := by
  simp only [dec_keypair, dbind_ok, dpure_ok] at h
  obtain ⟨a, b1, ha, c, b2, hc, hz⟩ := h
  cases hz
  exact ⟨decU32_ok_lt ha, decU32_ok_lt hc⟩

theorem dec_send_chain_ok {b r : Bytes} {s : SendChain}
    (h : dec_send_chain b = .ok (s, r)) : ValidSendChain s := by
  simp only [dec_send_chain, dbind_ok, dpure_ok] at h
  obtain ⟨a, b1, ha, c, b2, hc, hz⟩ := h
  cases hz
  exact ⟨dec_chain_key_ok ha, dec_keypair_ok hc⟩

theorem dec_recv_chain_ok {b r : Bytes} {s : RecvChain}
    (h : dec_recv_chain b = .ok (s, r)) : ValidRecvChain s := by
  simp only [dec_recv_chain, dbind_ok, dpure_ok] at h
  obtain ⟨a, b1, ha, c, b2, hc, hz⟩ := h
  cases hz
  exact ⟨dec_chain_key_ok ha, decU32_ok_lt hc⟩

theorem dec_root_key_ok {b r : Bytes} {k : RootKey}
    (h : dec_root_key b = .ok (k, r)) : k.key < 2 ^ 32 := by
  simp only [dec_root_key, dbind_ok, dpure_ok] at h
  obtain ⟨a, b1, ha, hz⟩ := h
  cases hz
  exact decU32_ok_lt ha

theorem dec_msg_keys_ok {b r : Bytes} {m : MessageKeys}
    (h : dec_msg_keys b = .ok (m, r)) : ValidMsgKeys m := by
  simp only [dec_msg_keys, dbind_ok, dpure_ok] at h
  obtain ⟨a, b1, ha, c, b2, hc, d, b3, hd, hz⟩ := h
  cases hz
  exact ⟨decU32_ok_lt ha, decU32_ok_lt hc, decU32_ok_lt hd⟩

theorem decMany_ok {α : Type} {p : Dec α} {Q : α → Prop}
    (hq : ∀ (b r : Bytes) (v : α), p b = .ok (v, r) → Q v) :
    ∀ (k : Nat) (b r : Bytes) (xs : List α), decMany p k b = .ok (xs, r) →
      xs.length = k ∧ ∀ x ∈ xs, Q x := by
  intro k
  induction k with
  | zero =>
    intro b r xs h
    simp only [decMany, dpure_ok] at h
    cases h
    simp
  | succ k ih =>
    intro b r xs h
    simp only [decMany, dbind_ok] at h
    obtain ⟨a, b1, ha, as, b2, has, hz⟩ := h
    rw [dpure_ok, Prod.mk.injEq] at hz
    obtain ⟨rfl, rfl⟩ := hz
    obtain ⟨hlen, hall⟩ := ih b1 r as has
    refine ⟨by simp [hlen], ?_⟩
    intro x hx
    rcases List.mem_cons.1 hx with rfl | hx
    · exact hq b b1 x ha
    · exact hall x hx

theorem dec_session_state_ok {b r : Bytes} {st : SessionState}
    (h : dec_session_state b = .ok (st, r)) : ValidState st := by
  simp only [dec_session_state, dbind_ok] at h
  obtain ⟨tg, b1, htg, lr, b2, hlr, rr, b3, hrr, sc, b4, hsc, rk, b5, hrk,
    ct, b6, hct, lv, b7, hlv, vm, b8, hvm, hz⟩ := h
  rw [dpure_ok, Prod.mk.injEq] at hz
  obtain ⟨rfl, rfl⟩ := hz
  obtain ⟨hrlen, hrall⟩ := decMany_ok (fun b r v hv => dec_recv_chain_ok hv) lr b2 b3 rr hrr
  obtain ⟨hvlen, hvall⟩ := decMany_ok (fun b r v hv => dec_msg_keys_ok hv) lv b7 r vm hvm
  refine ⟨decU32_ok_lt htg, hrall, ?_, dec_send_chain_ok hsc, dec_root_key_ok hrk,
    decU32_ok_lt hct, hvall, ?_⟩
  · rw [hrlen]
    exact decUsize_ok_lt hlr
  · rw [hvlen]
    exact decUsize_ok_lt hlv

theorem dec_pending_prekey_ok {b r : Bytes} {pp : Option (Nat × Nat)}
    (h : dec_pending_prekey b = .ok (pp, r)) :
    ∀ q ∈ pp.toList, q.1 < 2 ^ 32 ∧ q.2 < 2 ^ 32 := by
  simp only [dec_pending_prekey, dbind_ok] at h
  obtain ⟨t, b1, ht, hrest⟩ := h
  by_cases h1 : t = 1
  · rw [if_pos h1] at hrest
    rw [dpure_ok] at hrest
    cases hrest
    simp
  · rw [if_neg h1] at hrest
    by_cases h2 : t = 2
    · rw [if_pos h2] at hrest
      simp only [dbind_ok, dpure_ok] at hrest
      obtain ⟨id, b2, hid, pk, b3, hpk, hz⟩ := hrest
      cases hz
      intro q hq
      simp only [Option.toList_some, List.mem_singleton] at hq
      subst hq
      exact ⟨decU32_ok_lt hid, decU32_ok_lt hpk⟩
    · rw [if_neg h2] at hrest
      exact absurd hrest (by simp [dfail])

theorem dec_states_ok :
    ∀ (k c : Nat) (rb : List (Nat × Indexed)) (b r : Bytes)
      (rb2 : List (Nat × Indexed)) (c2 : Nat),
      dec_states k c rb b = .ok ((rb2, c2), r) →
      c2 = c + k ∧ ∃ ss : List SessionState, ss.length = k ∧
        (∀ st ∈ ss, ValidState st) ∧ rb2 = foldIns ss c rb := by
  intro k
  induction k with
  | zero =>
    intro c rb b r rb2 c2 h
    simp only [dec_states, dpure_ok] at h
    cases h
    exact ⟨rfl, [], rfl, by simp, rfl⟩
  | succ k ih =>
    intro c rb b r rb2 c2 h
    simp only [dec_states, dbind_ok] at h
    obtain ⟨s, b1, hs, hrest⟩ := h
    obtain ⟨hc2, ss, hlen, hval, hfold⟩ :=
      ih (c + 1) (bmapInsert s.session_tag ⟨c, s⟩ rb) b1 r rb2 c2 hrest
    refine ⟨by omega, s :: ss, by simp [hlen], ?_, hfold⟩
    intro st hst
    rcases List.mem_cons.1 hst with rfl | hst
    · exact dec_session_state_ok hs
    · exact hval st hst

theorem dec_session_ok {ident : IdentityKeyPair} {b rest : Bytes} {r : Session}
    (h : dec_session ident b = .ok (r, rest)) :
    r.local_identity = ident ∧ ValidSessionCore r ∧
    ∃ ss : List SessionState, ss.length = r.counter ∧
      (∀ st ∈ ss, ValidState st) ∧ r.session_states = foldIns ss 0 [] := by
  simp only [dec_session, dbind_ok, liftD_ok] at h
  obtain ⟨vs, b1, hvs, tg, b2, htg, li, b3, hli, hrest⟩ := h
  by_cases hid : li ≠ ident.public_key
  · rw [if_pos hid] at hrest
    exact absurd hrest (by simp [dfail])
  · rw [if_neg hid] at hrest
    rw [not_not] at hid
    simp only [dbind_ok, liftD_ok] at hrest
    obtain ⟨ri, b4, hri, pp, b5, hpp, ls, b6, hls, rc, b7, hrc, hz⟩ := hrest
    rw [dpure_ok, Prod.mk.injEq] at hz
    obtain ⟨rfl, rfl⟩ := hz
    obtain ⟨rb2, c2⟩ := rc
    obtain ⟨hc2, ss, hsslen, hssval, hfold⟩ := dec_states_ok ls 0 [] b6 rest rb2 c2 hrc
    have hch : li < 2 ^ 32 := by
      have := decU32_ok_lt hli
      omega
    have hrb2len : rb2.length ≤ ls := by
      have := foldIns_length_le ss 0 []
      simp only [List.length_nil, Nat.zero_add] at this
      rw [hfold]
      omega
    refine ⟨rfl, ⟨decU32_ok_lt htg, by show ident.public_key < 2 ^ 32; omega,
      decU32_ok_lt hri, dec_pending_prekey_ok hpp, ?_, ?_, ?_⟩, ss,
      by show ss.length = c2; omega, hssval, hfold⟩
    · have := decUsize_ok_lt hls
      show rb2.length < 2 ^ 64
      omega
    · show SortedKeys rb2
      rw [hfold]
      exact foldIns_sorted List.Pairwise.nil
    · show ∀ p ∈ rb2, p.1 = p.2.val.session_tag ∧ ValidState p.2.val
      intro p hp
      rw [hfold] at hp
      rcases foldIns_mem hp with ⟨st, hstm, i, rfl⟩ | hp
      · exact ⟨rfl, hssval st hstm⟩
      · exact absurd hp (List.not_mem_nil p)

-- Exact-step equations and error-path helpers ----------------------------------

theorem decU32_exact {n : Nat} (h : n < 2 ^ 32) (r : Bytes) :
    decU32 (encU32 n ++ r) = .ok (n, r) := (good_decU32 h).1 r

theorem decUsize_exact {n : Nat} (h : n < 2 ^ 64) (r : Bytes) :
    decUsize (encUsize n ++ r) = .ok (n, r) := (good_decUsize h).1 r

theorem dec_session_tag_exact {t : Nat} (h : t < 2 ^ 32) (r : Bytes) :
    dec_session_tag (encU32 t ++ r) = .ok (t, r) := (good_decU32 h).1 r

theorem dec_identity_key_exact {k : Nat} (h : k < 2 ^ 32) (r : Bytes) :
    dec_identity_key (encU32 k ++ r) = .ok (k, r) := (good_decU32 h).1 r

theorem dec_session_version_exact (r : Bytes) :
    dec_session_version (encU32 1 ++ r) = .ok (Version.V1, r) :=
  (good_session_version Version.V1).1 r

theorem dec_session_version_bad {v : Nat} (h1 : v < 2 ^ 32) (h2 : v ≠ 1)
    (rest : Bytes) : dec_session_version (encU32 v ++ rest) =
      .error ("Unknown session version " ++ toString v) := by
  simp only [dec_session_version, dbind_ok_step (decU32_exact h1 rest)]
  rw [if_neg h2]
  rfl

theorem dec_pending_prekey_none_exact (r : Bytes) :
    dec_pending_prekey (encU32 1 ++ r) = .ok (none, r) :=
  (@good_pending_prekey none (by simp)).1 r

theorem dec_pending_prekey_bad {v : Nat} (h1 : v < 2 ^ 32) (h2 : v ≠ 1)
    (h3 : v ≠ 2) (rest : Bytes) :
    dec_pending_prekey (encU32 v ++ rest) = .error ("Invalid pending prekeys") := by
  simp only [dec_pending_prekey, dbind_ok_step (decU32_exact h1 rest)]
  rw [if_neg h2, if_neg h3]
  rfl

theorem dpure_ne_error {ε α : Type} (x : α) (b : Bytes) (e : ε) :
    (dpure x : DecE ε α) b ≠ .error e := by
  simp [dpure]

theorem dbind_liftD_ne_lic {α β : Type} {p : Dec α} {f : α → DecS β} {b : Bytes}
    {k : Nat} (hf : ∀ a b2, f a b2 ≠ .error (.LocalIdentityChanged k)) :
    dbind (liftD p) f b ≠ .error (.LocalIdentityChanged k) := by
  intro hcon
  cases hp : p b with
  | error m => simp [dbind, liftD, hp] at hcon
  | ok w =>
    obtain ⟨a, b2⟩ := w
    rw [dbind_ok_step (liftD_of_ok hp)] at hcon
    exact hf a b2 hcon

/-- Exactness of `dec_session` on a field-by-field assembled stream, with an
arbitrary (not necessarily tag-sorted, not necessarily duplicate-free) state
section: the decoded collection is the insert-fold of the states in stream
order. -/
theorem good_dec_session_raw (ident : IdentityKeyPair) (tg ri : Nat)
    (pp : Option (Nat × Nat)) (ss : List SessionState)
    (h1 : tg < 2 ^ 32) (h2 : ident.public_key < 2 ^ 32) (h3 : ri < 2 ^ 32)
    (h4 : ∀ q ∈ pp.toList, q.1 < 2 ^ 32 ∧ q.2 < 2 ^ 32)
    (h5 : ss.length < 2 ^ 64) (h6 : ∀ st ∈ ss, ValidState st) :
    GoodAtE (dec_session ident) (DecodeSessionError.Other prem)
      (encU32 1 ++ (encU32 tg ++ (encU32 ident.public_key ++ (encU32 ri ++
        (enc_pending_prekey pp ++ (encUsize ss.length ++
          encAll enc_session_state ss))))))
      { version := Version.V1, session_tag := tg, counter := ss.length,
        local_identity := ident, remote_identity := ri, pending_prekey := pp,
        session_states := foldIns ss 0 [] } := by
  refine goodAtE_bind (goodAtE_lift (good_session_version Version.V1)) ?_
  refine goodAtE_bind (goodAtE_lift (good_decU32 h1)) ?_
  refine goodAtE_bind (goodAtE_lift (good_decU32 h2)) ?_
  rw [if_neg (show ¬ (ident.public_key ≠ ident.public_key) from fun hh => hh rfl)]
  refine goodAtE_bind (goodAtE_lift (good_decU32 h3)) ?_
  refine goodAtE_bind (goodAtE_lift (good_pending_prekey h4)) ?_
  refine goodAtE_bind (goodAtE_lift (good_decUsize h5)) ?_
  refine goodAtE_bind_nil (goodAtE_lift (good_dec_states 0 [] h6)) ?_
  refine goodAtE_mono (goodAtE_pure _ _) ?_
  simp

theorem canon_counter_eq {s : Session} (h : s.counter = s.session_states.length) :
    ({ s with
        counter := s.session_states.length,
        session_states := canonStates s.session_states 0 } : Session) =
    { s with session_states := canonStates s.session_states 0 } := by
  rw [← h]

-- Claims -----------------------------------------------------------------------

/-- Claim C1: for every validly constructed Session, decoding the bytes of
`enc_session` with the same identity keypair succeeds and yields a Session
equal to the original in every field, except that each state's insertion
index is reassigned 0..n in the order the states appear in the encoded
stream (the tag-sorted collection order). -/
theorem c1_round_trip (s : Session) (h : ValidSession s) :
    dec_session s.local_identity (enc_session s) =
      .ok ({ s with session_states := canonStates s.session_states 0 }, []) := by
  obtain ⟨hc, hcnt⟩ := h
  have hd := (good_dec_session hc).1 []
  rw [List.append_nil] at hd
  rw [hd, canon_counter_eq hcnt]

theorem c1_round_trip_witness :
    ValidSession wSession ∧
    dec_session wSession.local_identity (enc_session wSession) =
      .ok ({ wSession with session_states := canonStates wSession.session_states 0 },
        []) :=
  ⟨by decide, c1_round_trip wSession (by decide)⟩

/-- Claim C2: a stream carrying version 1, any session tag and an embedded
local-identity key `a` decoded with a keypair whose public key differs from
`a` fails with `LocalIdentityChanged a`, whatever bytes follow (nothing past
the identity comparison is read); when the keys agree the check passes and
no identity-changed failure can arise. -/
theorem c2_identity_check :
    (∀ (ident : IdentityKeyPair) (tg a : Nat) (rest : Bytes),
      tg < 2 ^ 32 → a < 2 ^ 32 → a ≠ ident.public_key →
      dec_session ident (encU32 1 ++ (encU32 tg ++ (encU32 a ++ rest))) =
        .error (.LocalIdentityChanged a)) ∧
    (∀ (ident : IdentityKeyPair) (tg : Nat) (rest : Bytes) (k : Nat),
      tg < 2 ^ 32 → ident.public_key < 2 ^ 32 →
      dec_session ident
          (encU32 1 ++ (encU32 tg ++ (encU32 ident.public_key ++ rest))) ≠
        .error (.LocalIdentityChanged k)) := by
  constructor
  · intro ident tg a rest h1 h2 hne
    simp only [dec_session,
      dbind_ok_step (liftD_of_ok
        (dec_session_version_exact (encU32 tg ++ (encU32 a ++ rest)))),
      dbind_ok_step (liftD_of_ok (dec_session_tag_exact h1 (encU32 a ++ rest))),
      dbind_ok_step (liftD_of_ok (dec_identity_key_exact h2 rest))]
    rw [if_pos hne]
    rfl
  · intro ident tg rest k h1 h2
    simp only [dec_session,
      dbind_ok_step (liftD_of_ok
        (dec_session_version_exact (encU32 tg ++ (encU32 ident.public_key ++ rest)))),
      dbind_ok_step (liftD_of_ok
        (dec_session_tag_exact h1 (encU32 ident.public_key ++ rest))),
      dbind_ok_step (liftD_of_ok (dec_identity_key_exact h2 rest))]
    rw [if_neg (show ¬ (ident.public_key ≠ ident.public_key) from fun hh => hh rfl)]
    exact dbind_liftD_ne_lic (fun ri b2 =>
      dbind_liftD_ne_lic (fun pp b3 =>
      dbind_liftD_ne_lic (fun ls b4 =>
      dbind_liftD_ne_lic (fun rc b5 => dpure_ne_error _ _ _))))

theorem c2_identity_check_witness :
    dec_session ⟨1, 9⟩ (encU32 1 ++ (encU32 5 ++ (encU32 7 ++ []))) =
      .error (.LocalIdentityChanged 7) :=
  c2_identity_check.1 ⟨1, 9⟩ 5 7 [] (by norm_num) (by norm_num) (by decide)

/-- Claim C3: a version field holding any u32 other than 1 makes
`dec_session` fail with a malformed-data error naming the offending value,
and nothing further is decoded; a version field of 1 decodes to the single
supported version. -/
theorem c3_version_check :
    (∀ (ident : IdentityKeyPair) (v : Nat) (rest : Bytes), v < 2 ^ 32 → v ≠ 1 →
      dec_session ident (encU32 v ++ rest) =
        .error (.Other ("Unknown session version " ++ toString v))) ∧
    (∀ rest : Bytes,
      dec_session_version (encU32 1 ++ rest) = .ok (Version.V1, rest)) := by
  constructor
  · intro ident v rest h1 h2
    simp only [dec_session,
      dbind_error_step (liftD_of_error (dec_session_version_bad h1 h2 rest))]
  · exact dec_session_version_exact

theorem c3_version_check_witness :
    dec_session ⟨0, 0⟩ (encU32 2 ++ []) =
      .error (.Other ("Unknown session version " ++ toString 2)) :=
  c3_version_check.1 ⟨0, 0⟩ 2 [] (by norm_num) (by decide)

/-- Claim C4: truncating the valid encoding of a Session at any byte offset
strictly before its end makes `dec_session` fail with a malformed-data
(premature end of input) error — never a successful or partial decode. -/
theorem c4_truncation (s : Session) (t : Bytes) (h : ValidSession s)
    (ht : Starts t (enc_session s)) (hne : t ≠ enc_session s) :
    dec_session s.local_identity t = .error (.Other prem) :=
  (good_dec_session h.1).2 t ht hne

theorem c4_truncation_witness :
    dec_session wSession.local_identity (List.take 3 (enc_session wSession)) =
      .error (.Other prem) :=
  c4_truncation wSession (List.take 3 (enc_session wSession)) (by decide)
    ⟨List.drop 3 (enc_session wSession), List.take_append_drop 3 (enc_session wSession)⟩
    (by decide)

/-- Claim C5 (counterexample): on a 12-byte stream whose receive-chain count
field claims a million entries, `dec_session_state` requests a buffer
capacity of 1000000 (`VecDeque::with_capacity`, line 175) before any element
is validated to exist, even though decoding then fails. -/
theorem c5_no_eager_alloc_counterexample :
    dec_session_state_capacities c5stream = [1000000] ∧
    c5stream.length = 12 ∧
    dec_session_state c5stream = .error prem :=
  ⟨by decide, by decide, by decide⟩

/-- Claim C5 (amended): whenever the session tag and the receive-chain count
parse, `dec_session_state` eagerly requests a capacity equal to the count
read from the stream, regardless of how many bytes remain. -/
theorem c5_eager_capacity_request (tg n : Nat) (rest : Bytes)
    (h1 : tg < 2 ^ 32) (h2 : n < 2 ^ 64) :
    ∃ l, dec_session_state_capacities (encU32 tg ++ (encUsize n ++ rest)) =
      n :: l := by
  simp only [dec_session_state_capacities,
    dec_session_tag_exact h1 (encUsize n ++ rest), decUsize_exact h2 rest]
  exact ⟨_, rfl⟩

theorem c5_eager_capacity_request_witness :
    ∃ l, dec_session_state_capacities (encU32 0 ++ (encUsize 5 ++ [])) = 5 :: l :=
  c5_eager_capacity_request 0 5 [] (by norm_num) (by norm_num)

/-- Claim C6: the pending-prekey field round-trips as a tagged value —
discriminant 1 for absent, discriminant 2 followed by the prekey id and its
public key for present, no other discriminant is produced; decode maps 1 to
absent, 2 to the pair, and fails with the invalid-pending-prekeys
malformed-data error on every other discriminant (also through
`dec_session`). -/
theorem c6_pending_prekey :
    (∀ pp : Option (Nat × Nat), (∀ q ∈ pp.toList, q.1 < 2 ^ 32 ∧ q.2 < 2 ^ 32) →
      ∀ r, dec_pending_prekey (enc_pending_prekey pp ++ r) = .ok (pp, r)) ∧
    (enc_pending_prekey none = encU32 1) ∧
    (∀ id pk : Nat, List.take 4 (enc_pending_prekey (some (id, pk))) = encU32 2 ∧
      List.drop 4 (enc_pending_prekey (some (id, pk))) =
        enc_prekey_id id ++ enc_public_key pk) ∧
    (∀ (v : Nat) (rest : Bytes), v < 2 ^ 32 → v ≠ 1 → v ≠ 2 →
      dec_pending_prekey (encU32 v ++ rest) =
        .error ("Invalid pending prekeys")) ∧
    (∀ (ident : IdentityKeyPair) (tg ri : Nat) (rest : Bytes),
      tg < 2 ^ 32 → ident.public_key < 2 ^ 32 → ri < 2 ^ 32 →
      dec_session ident (encU32 1 ++ (encU32 tg ++ (encU32 ident.public_key ++
        (encU32 ri ++ (encU32 3 ++ rest))))) =
        .error (.Other ("Invalid pending prekeys"))) := by
  refine ⟨fun pp h r => (good_pending_prekey h).1 r, rfl, ?_, ?_, ?_⟩
  · intro id pk
    constructor
    · rw [show (4 : Nat) = (encU32 2).length from (natToBytes_length 4 2).symm]
      exact List.take_left _ _
    · rw [show (4 : Nat) = (encU32 2).length from (natToBytes_length 4 2).symm]
      exact List.drop_left _ _
  · intro v rest h1 h2 h3
    exact dec_pending_prekey_bad h1 h2 h3 rest
  · intro ident tg ri rest h1 h2 h3
    simp only [dec_session,
      dbind_ok_step (liftD_of_ok (dec_session_version_exact
        (encU32 tg ++ (encU32 ident.public_key ++ (encU32 ri ++ (encU32 3 ++ rest)))))),
      dbind_ok_step (liftD_of_ok (dec_session_tag_exact h1
        (encU32 ident.public_key ++ (encU32 ri ++ (encU32 3 ++ rest))))),
      dbind_ok_step (liftD_of_ok (dec_identity_key_exact h2
        (encU32 ri ++ (encU32 3 ++ rest))))]
    rw [if_neg (show ¬ (ident.public_key ≠ ident.public_key) from fun hh => hh rfl)]
    simp only [
      dbind_ok_step (liftD_of_ok (dec_identity_key_exact h3 (encU32 3 ++ rest))),
      dbind_error_step (liftD_of_error
        (dec_pending_prekey_bad (show (3 : Nat) < 2 ^ 32 by norm_num)
          (by decide) (by decide) rest))]

theorem c6_pending_prekey_witness :
    dec_pending_prekey (enc_pending_prekey (some (7, 12)) ++ []) =
      .ok (some (7, 12), []) ∧
    dec_pending_prekey (encU32 3 ++ []) = .error ("Invalid pending prekeys") :=
  ⟨c6_pending_prekey.1 (some (7, 12)) (by decide) [],
   c6_pending_prekey.2.2.2.1 3 [] (by norm_num) (by decide) (by decide)⟩

/-- Claim C7 (counterexample): a stream with two states under the same tag
decodes successfully, but the surviving insertion indices are `[1]` — not a
dense sequence starting at zero. -/
theorem c7_dense_indices_counterexample :
    dec_session dupIdent dupStream = .ok (dupSession, []) ∧
    dupSession.session_states.map (fun p => p.2.idx) ≠
      List.range dupSession.session_states.length :=
  ⟨by decide, by decide⟩

/-- Claim C7 (amended): after a successful decode in which no tag collision
occurred (the collection's size equals the declared state count), the
insertion indices paired with the states are exactly a permutation of
0..n-1 — dense, starting at zero, assigned in the order the states were
read. -/
theorem c7_dense_indices (ident : IdentityKeyPair) (b rest : Bytes) (r : Session)
    (h : dec_session ident b = .ok (r, rest))
    (hlen : r.session_states.length = r.counter) :
    List.Perm (r.session_states.map (fun p => p.2.idx)) (List.range r.counter) := by
  obtain ⟨-, -, ss, hss, -, hfold⟩ := dec_session_ok h
  have hl : (foldIns ss 0 []).length =
      ([] : List (Nat × Indexed)).length + ss.length := by
    rw [← hfold]
    simp [hlen, hss]
  have hperm := foldIns_idx_perm hl
  rw [← hfold, hss] at hperm
  simp only [List.map_nil, List.nil_append] at hperm
  have hzero : (List.range r.counter).map (fun i => 0 + i) = List.range r.counter := by
    simp
  rw [hzero] at hperm
  exact hperm

theorem c7_dense_indices_witness :
    List.Perm (wCanon.session_states.map (fun p => p.2.idx))
      (List.range wCanon.counter) :=
  c7_dense_indices wIdent (enc_session wSession) [] wCanon (by decide) (by decide)

/-- Claim C8 (counterexample): a duplicate-tag stream decodes to a session
that does not survive an encode-decode round trip unchanged — the counter
and the surviving insertion index are not reproduced. -/
theorem c8_reencode_counterexample :
    dec_session dupIdent dupStream = .ok (dupSession, []) ∧
    dec_session dupIdent (enc_session dupSession) ≠ .ok (dupSession, []) :=
  ⟨by decide, by decide⟩

/-- Claim C8 (amended): if a decode succeeds and the resulting session is in
canonical form — counter equal to the number of held states and insertion
indices 0..n-1 in collection order — then re-encoding it and decoding again
with the same keypair reproduces it exactly. -/
theorem c8_reencode (ident : IdentityKeyPair) (b rest : Bytes) (r : Session)
    (h : dec_session ident b = .ok (r, rest))
    (h1 : r.counter = r.session_states.length)
    (h2 : canonStates r.session_states 0 = r.session_states) :
    dec_session ident (enc_session r) = .ok (r, []) := by
  obtain ⟨hli, hcore, -⟩ := dec_session_ok h
  have hround := (good_dec_session hcore).1 []
  rw [List.append_nil] at hround
  rw [← hli, hround, canon_counter_eq h1, h2]

theorem c8_reencode_witness :
    dec_session wIdent (enc_session wCanon) = .ok (wCanon, []) :=
  c8_reencode wIdent (enc_session wSession) [] wCanon (by decide) (by decide)
    (by decide)

/-- Claim C9: a stream whose state section holds states with duplicate tags
still decodes successfully; each later state replaces the earlier one under
its tag, so the resulting collection is strictly smaller than the declared
count while the session counter still equals the declared count. -/
theorem c9_duplicate_tags (ident : IdentityKeyPair) (tg ri : Nat)
    (ss : List SessionState) (rest : Bytes)
    (h1 : tg < 2 ^ 32) (h2 : ident.public_key < 2 ^ 32) (h3 : ri < 2 ^ 32)
    (h4 : ss.length < 2 ^ 64) (h5 : ∀ st ∈ ss, ValidState st)
    (h6 : ¬ (ss.map (fun st => st.session_tag)).Nodup) :
    dec_session ident ((encU32 1 ++ (encU32 tg ++ (encU32 ident.public_key ++
        (encU32 ri ++ (encU32 1 ++ (encUsize ss.length ++
          encAll enc_session_state ss)))))) ++ rest) =
      .ok ({ version := Version.V1, session_tag := tg, counter := ss.length,
             local_identity := ident, remote_identity := ri,
             pending_prekey := none, session_states := foldIns ss 0 [] }, rest) ∧
    (foldIns ss 0 []).length < ss.length := by
  constructor
  · exact (good_dec_session_raw ident tg ri none ss h1 h2 h3 (by simp) h4 h5).1 rest
  · have := @foldIns_length_lt ss 0 [] List.Pairwise.nil (Or.inr h6)
    simpa using this

theorem c9_duplicate_tags_witness :
    dec_session dupIdent ((encU32 1 ++ (encU32 6 ++ (encU32 8 ++ (encU32 13 ++
        (encU32 1 ++ (encUsize 2 ++
          encAll enc_session_state [dupState1, dupState2])))))) ++ []) =
      .ok ({ version := Version.V1, session_tag := 6, counter := 2,
             local_identity := dupIdent, remote_identity := 13,
             pending_prekey := none,
             session_states := foldIns [dupState1, dupState2] 0 [] }, []) ∧
    (foldIns [dupState1, dupState2] 0 []).length < 2 := by
  have := c9_duplicate_tags dupIdent 6 13 [dupState1, dupState2] []
    (by norm_num) (by decide) (by norm_num) (by norm_num) (by decide) (by decide)
  exact this

/-- Claim C10: `dec_session` does not require the source to be exhausted —
a valid encoding followed by arbitrary trailing bytes decodes to the same
session as the unextended stream, and the trailing bytes are simply the
unread leftover. -/
theorem c10_trailing_bytes (s : Session) (rest : Bytes) (h : ValidSession s) :
    dec_session s.local_identity (enc_session s ++ rest) =
      .ok ({ s with session_states := canonStates s.session_states 0 }, rest) := by
  have hd := (good_dec_session h.1).1 rest
  rw [hd, canon_counter_eq h.2]

theorem c10_trailing_bytes_witness :
    dec_session wSession.local_identity (enc_session wSession ++ [0, 1, 2]) =
      .ok ({ wSession with session_states := canonStates wSession.session_states 0 },
        [0, 1, 2]) :=
  c10_trailing_bytes wSession [0, 1, 2] (by decide)

end Proteus
